import Mathlib

/-!
Verification of the cloud Monte Carlo radiation-transmission service.

The development shallowly embeds the three source files of the repository:

* `app/simulation.py` — the simulation engine (`single_chunk_sim`,
  `run_simulation`): exponential free-path sampling, parallel chunk
  splitting with derived seeds, percentile / linspace / histogram
  construction, and result assembly.
* `app/app.py` — the submission endpoint (`submit`) and the background
  worker (`worker_loop`) which drives jobs through the filesystem areas
  `jobs` (queued), `processing` (claimed), `status` and `results`.
* `app/utils.py` — path helpers and JSON read/write (pure plumbing; the
  durable areas are modelled directly as state components).

Numpy floating point arithmetic is modelled over `ℚ`; the pseudo random
number generator is modelled by an arbitrary but fixed draw function
`stdDraw : Nat → Nat → ℚ` (seed and index to standard-exponential draw),
which is faithful because `np.random.default_rng(seed)` is a pure
function of its seed.  Nondeterministic quantities (fresh rng streams,
`SeedSequence().entropy`, wall-clock time, cpu count) are explicit
parameters, so independence from them is provable.
-/

namespace CloudSim

/-- A sampled free-path length.  `np.full(samples, np.inf)` in the
`mu <= 0` branch of `single_chunk_sim` produces infinite lengths, which we
model with a dedicated constructor; all other paths are finite rationals. -/
inductive PathLen
  | inf
  | fin (q : ℚ)
deriving DecidableEq

/-- Comparison `x <= y` on path lengths (`np.inf` is greater than every
finite float). -/
def PathLen.le : PathLen → PathLen → Bool
  | _, .inf => true
  | .inf, .fin _ => false
  | .fin a, .fin b => decide (a ≤ b)

/-- Comparison `x < y` on path lengths. -/
def PathLen.lt : PathLen → PathLen → Bool
  | .inf, _ => false
  | .fin _, .inf => true
  | .fin a, .fin b => decide (a < b)

/-- Test `path > thickness` from line 31 of `simulation.py`
(`np.count_nonzero(paths > thickness)`); an infinite path always exceeds
the thickness. -/
def PathLen.exceeds : PathLen → ℚ → Bool
  | .inf, _ => true
  | .fin q, t => decide (t < q)

/-- Python `max(a, b)` as used on line 85 of `simulation.py`. -/
def PathLen.maxP (a b : PathLen) : PathLen :=
  if a.le b then b else a

/-- The `MATERIAL_MU` dictionary lookup together with the containment
test `material not in MATERIAL_MU` (lines 9-13 and 49-51 of
`simulation.py`).  The coefficients are the demonstrative constants of
the source. -/
def lookupMu (m : String) : Option ℚ :=
  if m = "Aluminum" then some (15 / 100)
  else if m = "Lead" then some (12 / 10)
  else if m = "Water" then some (8 / 100)
  else none

/-- Lines 15-32 of `simulation.py`.  `stdDraw s i` is the i-th
standard-exponential draw of the generator seeded with `s`; the source
multiplies it by `scale = 1/mu`.  `freshDraw` is the stream of the
unseeded generator `np.random.default_rng()`, used only when
`rng_seed is None`.  The `mu <= 0` branch avoids the division by zero
and makes every path infinite. -/
def single_chunk_sim (samples : Nat) (mu thickness : ℚ) (rng_seed : Option Nat)
    (stdDraw : Nat → Nat → ℚ) (freshDraw : Nat → ℚ) : Nat × List PathLen :=
  let draw : Nat → ℚ :=
    match rng_seed with
    | some s => stdDraw s
    | none => freshDraw
  let paths : List PathLen :=
    if mu ≤ 0 then List.replicate samples .inf
    else (List.range samples).map fun i => .fin ((1 / mu) * draw i)
  (paths.countP (fun p => p.exceeds thickness), paths)

/-- Line 62 of `simulation.py`:
`offset_seed = seed or np.random.SeedSequence().entropy`.
Python `or` falls through on every falsy value, so a caller-supplied
seed of `0` is replaced by the process-generated entropy. -/
def offsetSeed (seed : Option Nat) (entropy : Nat) : Nat :=
  match seed with
  | some s => if s = 0 then entropy else s
  | none => entropy

/-- Lines 59-66 of `simulation.py`: chunk construction.  Each entry is
`(cnt, derived seed)`; chunks with `cnt = 0` are skipped (`if cnt > 0`). -/
def chunkSpecs (samples nw offSeed : Nat) : List (Nat × Nat) :=
  let base := samples / nw
  let rem := samples % nw
  (List.range nw).filterMap fun i =>
    let cnt := base + (if i < rem then 1 else 0)
    if 0 < cnt then some (cnt, offSeed + i) else none

/-- Lines 55-57 of `simulation.py`: the worker count defaults to
`min(4, max(1, cpu_count()))`. -/
def resolveWorkers (n_workers : Option Nat) (cpu_avail : Nat) : Nat :=
  n_workers.getD (min 4 (max 1 cpu_avail))

/-- The sampling part of `run_simulation` (lines 54-80): either one
sequential chunk, or the pool fan-out over `chunkSpecs` with transmitted
counts summed and path collections concatenated in chunk index order
(`p.starmap` preserves order). -/
def simCore (mu thickness : ℚ) (samples : Nat) (seed : Option Nat) (parallel : Bool)
    (nw : Nat) (stdDraw : Nat → Nat → ℚ) (freshDraw : Nat → ℚ) (entropy : Nat) :
    Nat × List PathLen :=
  if parallel then
    let specs := chunkSpecs samples nw (offsetSeed seed entropy)
    let results := specs.map fun c => single_chunk_sim c.1 mu thickness (some c.2) stdDraw freshDraw
    ((results.map Prod.fst).sum, (results.map Prod.snd).flatten)
  else
    single_chunk_sim samples mu thickness seed stdDraw freshDraw

/-- Numpy sort on path lengths (infinities sort last). -/
def sortPaths (xs : List PathLen) : List PathLen :=
  List.insertionSort (fun a b => a.le b = true) xs

/-- The default linear-interpolation percentile `np.percentile(xs, 95)`
(line 85 of `simulation.py`): virtual index `0.95 * (n - 1)`, then
interpolation between the two neighbouring order statistics.  When an
infinite sample reaches the interpolation the numpy result is not a
finite float; we collapse those cases to `inf` (they are unreachable for
the recognized materials, whose coefficients are all positive). -/
def percentile95 (xs : List PathLen) : PathLen :=
  let sorted := sortPaths xs
  let n := sorted.length
  let pos : ℚ := 95 * ((n : ℚ) - 1) / 100
  let lo : Nat := (⌊pos⌋).toNat
  let hi : Nat := min (lo + 1) (n - 1)
  match sorted.getD lo (.fin 0), sorted.getD hi (.fin 0) with
  | .fin a, .fin b => .fin (a + (pos - (lo : ℚ)) * (b - a))
  | _, _ => .inf

/-- `np.linspace(start, stop, num)` (line 85 of `simulation.py`):
`num` equally spaced values from `start` to `stop`, both endpoints
included.  A non-finite stop produces non-finite interior values, with
the first endpoint pinned to `start` as numpy does. -/
def linspaceP (start : ℚ) (stop : PathLen) (num : Nat) : List PathLen :=
  match stop with
  | .fin b => (List.range num).map fun i => .fin (start + (i : ℚ) * ((b - start) / ((num : ℚ) - 1)))
  | .inf => (List.range num).map fun i => if i = 0 then .fin start else .inf

/-- `np.histogram(xs, bins=edges)` (line 86 of `simulation.py`): one
count per consecutive pair of edges, half-open bins except for the last
bin which is closed on both ends; values outside the outer edges are not
counted. -/
def histCounts (edges : List PathLen) (xs : List PathLen) : List Nat :=
  (List.range (edges.length - 1)).map fun k =>
    let lo := edges.getD k (.fin 0)
    let hi := edges.getD (k + 1) (.fin 0)
    if k + 1 = edges.length - 1 then
      xs.countP fun x => lo.le x && x.le hi
    else
      xs.countP fun x => lo.le x && x.lt hi

/-- The parameter dictionary of `run_simulation` after the coercions of
lines 44-47 of `simulation.py`. -/
structure SimParams where
  material : String
  thickness : ℚ
  samples : Nat
  seed : Option Nat

/-- The result dictionary assembled on lines 106-117 of
`simulation.py` (the saved matplotlib figure is dropped: it carries no
data the service reads back). -/
structure SimResult where
  material : String
  thickness : ℚ
  samples : Nat
  transmitted : Nat
  transmitted_fraction : ℚ
  bins : List PathLen
  counts : List Nat
  runtime_seconds : ℚ
  parallel_used : Bool
  workers : Nat

/-- Lines 82-117 of `simulation.py`: fraction, histogram edges
(`max(thickness * 2, percentile if nonempty else thickness)` spanned by
20 linspace edges), histogram counts, and the result dictionary.  `core`
is the pair of total transmitted count and the concatenated path
collection. -/
def assembleResult (material : String) (thickness : ℚ) (samples : Nat)
    (core : Nat × List PathLen) (parallel : Bool) (nw : Nat) (elapsed : ℚ) : SimResult :=
  let transmitted_total := core.1
  let all_paths := core.2
  let transmitted_fraction := (transmitted_total : ℚ) / (samples : ℚ)
  let hiEdge := PathLen.maxP (.fin (thickness * 2))
    (if all_paths.length ≠ 0 then percentile95 all_paths else .fin thickness)
  let bins := linspaceP 0 hiEdge 20
  let counts := histCounts bins all_paths
  { material := material
    thickness := thickness
    samples := samples
    transmitted := transmitted_total
    transmitted_fraction := transmitted_fraction
    bins := bins
    counts := counts
    runtime_seconds := elapsed
    parallel_used := parallel
    workers := if parallel then nw else 1 }

/-- Lines 34-118 of `simulation.py`.  `entropy` models
`np.random.SeedSequence().entropy`, `cpu_avail` models `cpu_count()`,
`elapsed` models the wall-clock difference `time.time() - start`.
`ValueError("Unknown material")` is modelled as `Except.error`. -/
def run_simulation (params : SimParams) (parallel : Bool) (n_workers : Option Nat)
    (stdDraw : Nat → Nat → ℚ) (freshDraw : Nat → ℚ) (entropy : Nat)
    (cpu_avail : Nat) (elapsed : ℚ) : Except String SimResult :=
  match lookupMu params.material with
  | none => .error "Unknown material"
  | some mu =>
    let nw := resolveWorkers n_workers cpu_avail
    let core := simCore mu params.thickness params.samples params.seed parallel nw
      stdDraw freshDraw entropy
    .ok (assembleResult params.material params.thickness params.samples core parallel nw elapsed)

/-! ## Job store and worker model

Job identifiers (`uuid4().hex` in `utils.py`) are modelled as naturals;
freshness of a generated id is a precondition of the submit step.  The
four filesystem areas of `app.py` become state components: `queued`
(the `jobs` directory), `claimed` (the `processing` directory), `status`
and `result` (latest JSON content per job id).  `resultWrites` counts
how often the result file of a job has been written, so that
at-most-once creation is expressible. -/

/-- Job status values written by `app.py` (`queued`, `running`, `done`)
together with the modelled-but-never-written `failed` state of the spec. -/
inductive JStatus
  | queued
  | running
  | done
  | failed
deriving DecidableEq

/-- Program counter of the worker inside one job iteration of
`worker_loop` (lines 126-201 of `app.py`): position after the atomic
rename, after the running-status write, after `run_simulation` (carrying
the transmitted count), after the result write, and after the
done-status write. -/
inductive Phase
  | claimedP
  | runningP
  | simulatedP (r : Nat)
  | resultP
  | doneP
deriving DecidableEq

/-- Pointwise update of a boolean area membership. -/
def setB (f : Nat → Bool) (j : Nat) (b : Bool) : Nat → Bool :=
  fun k => if k = j then b else f k

/-- Pointwise update of a per-job record map. -/
def setO {α : Type} (f : Nat → Option α) (j : Nat) (v : Option α) : Nat → Option α :=
  fun k => if k = j then v else f k

/-- Increment of a per-job write counter. -/
def bump (f : Nat → Nat) (j : Nat) : Nat → Nat :=
  fun k => if k = j then f k + 1 else f k

/-- Global state of the service: the four filesystem areas plus the
worker position.  The result record is summarised by its transmitted
count (the payload content is irrelevant to the store invariants). -/
structure SysState where
  queued : Nat → Bool
  claimed : Nat → Bool
  status : Nat → Option JStatus
  result : Nat → Option Nat
  resultWrites : Nat → Nat
  wpc : Option (Nat × Phase)

/-- Empty directories, no worker activity. -/
def initState : SysState :=
  { queued := fun _ => false
    claimed := fun _ => false
    status := fun _ => none
    result := fun _ => none
    resultWrites := fun _ => 0
    wpc := none }

/-- Labels of system steps; `failAt ph` is an exception raised by the
operation the worker attempts while at phase `ph` (caught by the
`except` clause on lines 203-205 of `app.py`). -/
inductive SLabel
  | submitL (j : Nat)
  | claimL (j : Nat)
  | writeRunningL
  | simulateL (r : Nat)
  | writeResultL
  | writeDoneL
  | releaseL
  | failAt (ph : Phase)

/-- One step of the submit/worker system.

* `submitStep` — lines 63-79 of `app.py`: a fresh uuid is generated, the
  descriptor is written to `jobs` and the initial queued status is
  written (the DynamoDB mirror write is swallowed on failure and mirrors
  no modelled state).
* `claimStep` — lines 128-141: the worker, when idle, picks a queued job
  and atomically renames its descriptor into `processing` (a move, not
  a copy).  The source picks the oldest file; the model allows any
  queued job, a superset of the source behaviour, so every invariant
  proved over this relation also holds for the oldest-first scheduler.
* `writeRunningStep` / `simulateStep` / `writeResultStep` /
  `writeDoneStep` / `releaseStep` — lines 143-201, in source order: the
  plot save and the S3 uploads have their own inner `try/except` blocks
  and touch no modelled state, so they do not appear.
* `failStep` — an exception in the operation attempted at the current
  phase propagates to the outer `except`, which logs, sleeps and
  continues: the claim marker stays, nothing else changes. -/
inductive Step : SysState → SLabel → SysState → Prop
  | submitStep (s : SysState) (j : Nat)
      (hq : s.queued j = false) (hc : s.claimed j = false) (hs : s.status j = none) :
      Step s (.submitL j)
        { s with queued := setB s.queued j true, status := setO s.status j (some .queued) }
  | claimStep (s : SysState) (j : Nat)
      (hq : s.queued j = true) (hidle : s.wpc = none) :
      Step s (.claimL j)
        { s with queued := setB s.queued j false, claimed := setB s.claimed j true,
                 wpc := some (j, .claimedP) }
  | writeRunningStep (s : SysState) (j : Nat)
      (h : s.wpc = some (j, .claimedP)) :
      Step s .writeRunningL
        { s with status := setO s.status j (some .running), wpc := some (j, .runningP) }
  | simulateStep (s : SysState) (j : Nat) (r : Nat)
      (h : s.wpc = some (j, .runningP)) :
      Step s (.simulateL r) { s with wpc := some (j, .simulatedP r) }
  | writeResultStep (s : SysState) (j : Nat) (r : Nat)
      (h : s.wpc = some (j, .simulatedP r)) :
      Step s .writeResultL
        { s with result := setO s.result j (some r),
                 resultWrites := bump s.resultWrites j, wpc := some (j, .resultP) }
  | writeDoneStep (s : SysState) (j : Nat)
      (h : s.wpc = some (j, .resultP)) :
      Step s .writeDoneL
        { s with status := setO s.status j (some .done), wpc := some (j, .doneP) }
  | releaseStep (s : SysState) (j : Nat)
      (h : s.wpc = some (j, .doneP)) :
      Step s .releaseL { s with claimed := setB s.claimed j false, wpc := none }
  | failStep (s : SysState) (j : Nat) (ph : Phase)
      (h : s.wpc = some (j, ph)) :
      Step s (.failAt ph) { s with wpc := none }

/-- Some step with some label. -/
def SysStep (a b : SysState) : Prop := ∃ l, Step a l b

/-- States reachable from the empty system. -/
def Reachable (s : SysState) : Prop :=
  Relation.ReflTransGen SysStep initState s

/-- States reachable from a given state. -/
def ReachFrom (s t : SysState) : Prop :=
  Relation.ReflTransGen SysStep s t

/-- Consistency of the record maps with the worker phase. -/
def phaseOK (s : SysState) (j : Nat) : Phase → Prop
  | .claimedP => s.status j = some .queued ∧ s.result j = none ∧ s.resultWrites j = 0
  | .runningP => s.status j = some .running ∧ s.result j = none ∧ s.resultWrites j = 0
  | .simulatedP _ => s.status j = some .running ∧ s.result j = none ∧ s.resultWrites j = 0
  | .resultP => s.status j = some .running ∧ s.result j ≠ none ∧ s.resultWrites j = 1
  | .doneP => s.status j = some .done ∧ s.result j ≠ none ∧ s.resultWrites j = 1

/-- Global invariant of the reachable states. -/
structure Inv (s : SysState) : Prop where
  excl : ∀ j, ¬(s.queued j = true ∧ s.claimed j = true)
  qinv : ∀ j, s.queued j = true →
    s.status j = some .queued ∧ s.result j = none ∧ s.resultWrites j = 0
  cstat : ∀ j, s.claimed j = true → s.status j ≠ none
  wpcinv : ∀ j ph, s.wpc = some (j, ph) → s.claimed j = true ∧ phaseOK s j ph
  nofail : ∀ j, s.status j ≠ some .failed
  wlim : ∀ j, s.resultWrites j ≤ 1
  donores : ∀ j, s.status j = some .done → s.result j ≠ none
  freshres : ∀ j, s.status j = none → s.result j = none ∧ s.resultWrites j = 0

/-! ## The bare job store

Claim C4 speaks about states reachable by the three store operations
alone (enqueue, claim-by-rename, release), without the worker phase
discipline, so the store is also modelled on its own. -/

/-- The queued/claimed directory pair on its own. -/
structure StoreSt where
  queued : Nat → Bool
  claimed : Nat → Bool

/-- The three store operations of `app.py` and `utils.py`: writing a
descriptor for a fresh uuid into `jobs`, the `os.rename` of the
descriptor into `processing` (line 141, a move: the source file ceases
to exist), and the `os.remove` of the processing marker (line 201). -/
inductive StoreStep : StoreSt → StoreSt → Prop
  | enqueue (s : StoreSt) (j : Nat) (hq : s.queued j = false) (hc : s.claimed j = false) :
      StoreStep s { queued := setB s.queued j true, claimed := s.claimed }
  | claimMove (s : StoreSt) (j : Nat) (hq : s.queued j = true) :
      StoreStep s { queued := setB s.queued j false, claimed := setB s.claimed j true }
  | release (s : StoreSt) (j : Nat) :
      StoreStep s { queued := s.queued, claimed := setB s.claimed j false }

/-- Store states reachable from empty directories. -/
def StoreReachable (s : StoreSt) : Prop :=
  Relation.ReflTransGen StoreStep { queued := fun _ => false, claimed := fun _ => false } s

/-! ## The submission endpoint -/

/-- Configuration constants of `app.py` (lines 30-32). -/
def MAX_SAMPLES : Int := 1000

/-- Allowed material names (line 31 of `app.py`). -/
def ALLOWED_MATERIALS : List String := ["Aluminum", "Lead", "Water"]

/-- Allowed slab thicknesses in millimetres (line 32 of `app.py`). -/
def ALLOWED_THICKNESSES : List ℚ := [1/10, 1/2, 1, 2]

/-- The JSON payload of `/api/submit` after the numeric coercions of
lines 51-54 of `app.py` (`payload.get("material")` yields `None` when
the field is absent). -/
structure Payload where
  material : Option String
  thickness : ℚ
  samples : Int
  parallel : Bool

/-- Responses of the submit endpoint. -/
inductive SubmitResp
  | accepted (job_id : Nat)
  | rejected (msg : String) (code : Nat)
deriving DecidableEq

/-- Lines 46-94 of `app.py`: validation in source order (material,
thickness, samples), then job-id generation and the descriptor and
initial-status writes.  `freshId` models `uuid.uuid4().hex`.  The
DynamoDB mirror write sits in a `try/except` and touches no modelled
state. -/
def submit (s : SysState) (p : Payload) (freshId : Nat) : SysState × SubmitResp :=
  let matOK : Bool :=
    match p.material with
    | some m => decide (m ∈ ALLOWED_MATERIALS)
    | none => false
  if matOK = false then (s, .rejected "invalid material" 400)
  else if p.thickness ∉ ALLOWED_THICKNESSES then (s, .rejected "invalid thickness" 400)
  else if p.samples ≤ 0 ∨ MAX_SAMPLES < p.samples then
    (s, .rejected "samples out of allowed range" 400)
  else
    ({ s with queued := setB s.queued freshId true,
              status := setO s.status freshId (some .queued) },
     .accepted freshId)

/-- State of the system after submit(0), claim, running-status write,
simulation with transmitted count 1, and the result write — but before
the done-status write: lines 183-198 of app.py write the result file
before the done status. -/
def resultBeforeDoneState : SysState :=
  { queued := setB (setB (fun _ => false) 0 true) 0 false
    claimed := setB (fun _ => false) 0 true
    status := setO (setO (fun _ => none) 0 (some .queued)) 0 (some .running)
    result := setO (fun _ => none) 0 (some 1)
    resultWrites := bump (fun _ => 0) 0
    wpc := some (0, .resultP) }

/-- State of the system after submit(0) and the claim rename, while the
worker is about to write the running status. -/
def claimedPendingState : SysState :=
  { queued := setB (setB (fun _ => false) 0 true) 0 false
    claimed := setB (fun _ => false) 0 true
    status := setO (fun _ => none) 0 (some .queued)
    result := fun _ => none
    resultWrites := fun _ => 0
    wpc := some (0, .claimedP) }

/-- State after the running-status write of job 0 raised an exception:
the claim marker survives, but the status file still says queued. -/
def failedRunningWriteState : SysState :=
  { queued := setB (setB (fun _ => false) 0 true) 0 false
    claimed := setB (fun _ => false) 0 true
    status := setO (fun _ => none) 0 (some .queued)
    result := fun _ => none
    resultWrites := fun _ => 0
    wpc := none }

/-- The per-bin membership test of `np.histogram` for the bin starting
at edge `k`. -/
def binPred (edges : List PathLen) (k : Nat) : PathLen → Bool :=
  if k + 1 = edges.length - 1 then
    fun x => (edges.getD k (.fin 0)).le x && x.le (edges.getD (k + 1) (.fin 0))
  else
    fun x => (edges.getD k (.fin 0)).le x && x.lt (edges.getD (k + 1) (.fin 0))

/-! ## Helper lemmas -/

theorem lookupMu_eq_none {m : String} (h : m ∉ ALLOWED_MATERIALS) : lookupMu m = none := by
  simp only [ALLOWED_MATERIALS, List.mem_cons, List.not_mem_nil, or_false] at h
  push_neg at h
  obtain ⟨h1, h2, h3⟩ := h
  unfold lookupMu
  rw [if_neg h1, if_neg h2, if_neg h3]

theorem countP_replicate_eq {α : Type} (p : α → Bool) (n : Nat) (a : α) :
    (List.replicate n a).countP p = if p a then n else 0 := by
  induction n with
  | zero => simp
  | succ n ih =>
    rw [List.replicate_succ, List.countP_cons, ih]
    split <;> simp

theorem sum_filterMap_pos (l : List Nat) (c g : Nat → Nat) :
    ((l.filterMap fun i => if 0 < c i then some (c i, g i) else none).map Prod.fst).sum
      = (l.map c).sum := by
  induction l with
  | nil => rfl
  | cons a l ih =>
    by_cases h : 0 < c a
    · simp only [List.filterMap_cons, if_pos h, List.map_cons, List.sum_cons, ih]
    · simp only [List.filterMap_cons, if_neg h, List.map_cons, List.sum_cons, ih]
      omega

theorem sum_range_base_ite (n base r : Nat) :
    ((List.range n).map fun i => base + if i < r then 1 else 0).sum
      = n * base + min r n := by
  induction n with
  | zero => simp
  | succ n ih =>
    rw [List.range_succ, List.map_append, List.sum_append, ih, Nat.succ_mul]
    simp only [List.map_cons, List.map_nil, List.sum_cons, List.sum_nil]
    rcases Nat.lt_or_ge n r with h | h
    · rw [if_pos h]; omega
    · rw [if_neg (Nat.not_lt.mpr h)]; omega

theorem chunkSpecs_sum (samples nw o : Nat) (h : 0 < nw) :
    ((chunkSpecs samples nw o).map Prod.fst).sum = samples := by
  have h1 := sum_filterMap_pos (List.range nw)
      (fun i => samples / nw + if i < samples % nw then 1 else 0) (fun i => o + i)
  simp only [] at h1
  have h2 := sum_range_base_ite nw (samples / nw) (samples % nw)
  have h3 : min (samples % nw) nw = samples % nw :=
    min_eq_left (le_of_lt (Nat.mod_lt _ h))
  have h4 := Nat.div_add_mod samples nw
  simp only [chunkSpecs]
  rw [h1, h2, h3]
  exact h4

theorem chunkSpecs_mem_fst {samples nw o a : Nat}
    (h : a ∈ (chunkSpecs samples nw o).map Prod.fst) :
    a = samples / nw ∨ a = samples / nw + 1 := by
  simp only [List.mem_map] at h
  obtain ⟨⟨cnt, sd⟩, hmem, ha⟩ := h
  simp only [chunkSpecs, List.mem_filterMap, List.mem_range] at hmem
  obtain ⟨i, _, heq⟩ := hmem
  simp only [] at ha
  subst ha
  rcases Nat.lt_or_ge i (samples % nw) with hir | hir
  · rw [if_pos hir] at heq
    rw [if_pos (Nat.succ_pos (samples / nw))] at heq
    simp only [Option.some.injEq, Prod.mk.injEq] at heq
    omega
  · rw [if_neg (Nat.not_lt.mpr hir)] at heq
    by_cases hb : 0 < samples / nw + 0
    · rw [if_pos hb] at heq
      simp only [Option.some.injEq, Prod.mk.injEq] at heq
      omega
    · rw [if_neg hb] at heq
      exact absurd heq (by simp)

theorem filterMap_all_some {α β : Type} (l : List α) (f : α → Option β) (g : α → β)
    (h : ∀ a ∈ l, f a = some (g a)) : l.filterMap f = l.map g := by
  induction l with
  | nil => rfl
  | cons a l ih =>
    rw [List.filterMap_cons, h a (l.mem_cons_self a), List.map_cons,
      ih (fun b hb => h b (List.mem_cons_of_mem a hb))]

theorem filterMap_all_none {α β : Type} (l : List α) (f : α → Option β)
    (h : ∀ a ∈ l, f a = none) : l.filterMap f = [] := by
  induction l with
  | nil => rfl
  | cons a l ih =>
    rw [List.filterMap_cons, h a (l.mem_cons_self a),
      ih (fun b hb => h b (List.mem_cons_of_mem a hb))]

/-- The chunk list is an initial segment of chunk indices: either all
`nw` chunks are kept (positive base size) or exactly the first
`samples % nw` chunks survive the positivity filter. -/
theorem chunkSpecs_eq_map (samples nw o : Nat) :
    chunkSpecs samples nw o =
      (List.range (if 0 < samples / nw then nw else min (samples % nw) nw)).map
        (fun i => (samples / nw + (if i < samples % nw then 1 else 0), o + i)) := by
  by_cases hb : 0 < samples / nw
  · rw [if_pos hb]
    simp only [chunkSpecs]
    refine filterMap_all_some _ _ _ (fun i _ => ?_)
    rw [if_pos (by omega)]
  · rw [if_neg hb]
    simp only [chunkSpecs]
    have hrange : List.range nw
        = List.range (min (samples % nw) nw)
          ++ (List.range (nw - min (samples % nw) nw)).map
              (fun x => min (samples % nw) nw + x) := by
      conv_lhs =>
        rw [show nw = min (samples % nw) nw + (nw - min (samples % nw) nw) from by omega]
      rw [List.range_add]
    rw [hrange, List.filterMap_append]
    have h1 : (List.range (min (samples % nw) nw)).filterMap
        (fun i => if 0 < samples / nw + (if i < samples % nw then 1 else 0)
          then some (samples / nw + (if i < samples % nw then 1 else 0), o + i) else none)
        = (List.range (min (samples % nw) nw)).map
            (fun i => (samples / nw + (if i < samples % nw then 1 else 0), o + i)) := by
      refine filterMap_all_some _ _ _ (fun i hi => ?_)
      rw [List.mem_range] at hi
      have hilt : i < samples % nw := by omega
      rw [if_pos hilt, if_pos (Nat.succ_pos (samples / nw))]
    have h2 : ((List.range (nw - min (samples % nw) nw)).map
          (fun x => min (samples % nw) nw + x)).filterMap
        (fun i => if 0 < samples / nw + (if i < samples % nw then 1 else 0)
          then some (samples / nw + (if i < samples % nw then 1 else 0), o + i) else none)
        = [] := by
      refine filterMap_all_none _ _ (fun i hi => ?_)
      simp only [List.mem_map, List.mem_range] at hi
      obtain ⟨x, hx, rfl⟩ := hi
      have hge : ¬(min (samples % nw) nw + x < samples % nw) := by omega
      rw [if_neg hge]
      have hz : ¬(0 < samples / nw + 0) := by simpa using hb
      rw [if_neg hz]
    rw [h1, h2, List.append_nil]

/-- Every chunk receives the derived seed `offSeed + index`. -/
theorem chunkSpecs_getElem_snd (samples nw o i : Nat) (p : Nat × Nat)
    (h : (chunkSpecs samples nw o)[i]? = some p) : p.2 = o + i := by
  rw [chunkSpecs_eq_map, List.getElem?_map] at h
  have hik : i < (if 0 < samples / nw then nw else min (samples % nw) nw) := by
    by_contra hik
    rw [List.getElem?_eq_none (by simpa using Nat.le_of_not_lt hik)] at h
    exact absurd h (by simp)
  rw [List.getElem?_range hik] at h
  simp only [Option.map_some'] at h
  rw [(Option.some.inj h).symm]

theorem phaseOK_congr (s t : SysState) {j : Nat} {ph : Phase}
    (h : phaseOK s j ph) (h1 : t.status j = s.status j)
    (h2 : t.result j = s.result j) (h3 : t.resultWrites j = s.resultWrites j) :
    phaseOK t j ph := by
  cases ph <;> simp only [phaseOK] at h ⊢ <;> rw [h1, h2, h3] <;> exact h

theorem init_inv : Inv initState :=
  ⟨fun j h => by simp [initState] at h,
   fun j h => by simp [initState] at h,
   fun j h => by simp [initState] at h,
   fun j ph h => by simp [initState] at h,
   fun j => by simp [initState],
   fun j => by simp [initState],
   fun j h => by simp [initState] at h,
   fun j _ => ⟨rfl, rfl⟩⟩

theorem step_preserves_inv {a b : SysState} {l : SLabel}
    (hstep : Step a l b) (inv : Inv a) : Inv b := by
  cases hstep with
  | submitStep j hq hc hst =>
    obtain ⟨hres, hw⟩ := inv.freshres j hst
    refine ⟨?_, ?_, ?_, ?_, ?_, ?_, ?_, ?_⟩
    · intro k hk
      by_cases hkj : k = j
      · subst hkj
        have h2 : a.claimed k = true := hk.2
        rw [hc] at h2
        simp at h2
      · exact inv.excl k ⟨by simpa [setB, hkj] using hk.1, hk.2⟩
    · intro k hk
      by_cases hkj : k = j
      · subst hkj
        exact ⟨by simp [setO], hres, hw⟩
      · obtain ⟨h1, h2, h3⟩ := inv.qinv k (by simpa [setB, hkj] using hk)
        exact ⟨by simpa [setO, hkj] using h1, h2, h3⟩
    · intro k hk
      by_cases hkj : k = j
      · subst hkj
        have h2 : a.claimed k = true := hk
        rw [hc] at h2
        simp at h2
      · have h2 := inv.cstat k hk
        simpa [setO, hkj] using h2
    · intro k ph hk
      have hwp : a.wpc = some (k, ph) := hk
      obtain ⟨hcl, hok⟩ := inv.wpcinv k ph hwp
      have hkj : k ≠ j := by
        intro he
        rw [he, hc] at hcl
        simp at hcl
      exact ⟨hcl, phaseOK_congr a _ hok (by simp [setO, hkj]) rfl rfl⟩
    · intro k
      by_cases hkj : k = j
      · subst hkj; simp [setO]
      · have h2 := inv.nofail k
        simpa [setO, hkj] using h2
    · exact inv.wlim
    · intro k hk
      by_cases hkj : k = j
      · subst hkj
        simp [setO] at hk
      · exact inv.donores k (by simpa [setO, hkj] using hk)
    · intro k hk
      by_cases hkj : k = j
      · subst hkj
        simp [setO] at hk
      · exact inv.freshres k (by simpa [setO, hkj] using hk)
  | claimStep j hq hidle =>
    obtain ⟨hqs, hqr, hqw⟩ := inv.qinv j hq
    refine ⟨?_, ?_, ?_, ?_, ?_, ?_, ?_, ?_⟩
    · intro k hk
      by_cases hkj : k = j
      · subst hkj
        have h1 : setB a.queued k false k = true := hk.1
        simp [setB] at h1
      · exact inv.excl k
          ⟨by simpa [setB, hkj] using hk.1, by simpa [setB, hkj] using hk.2⟩
    · intro k hk
      by_cases hkj : k = j
      · subst hkj
        have h1 : setB a.queued k false k = true := hk
        simp [setB] at h1
      · exact inv.qinv k (by simpa [setB, hkj] using hk)
    · intro k hk
      by_cases hkj : k = j
      · subst hkj
        intro hnone
        have h2 : a.status k = none := hnone
        rw [hqs] at h2
        simp at h2
      · exact inv.cstat k (by simpa [setB, hkj] using hk)
    · intro k ph hk
      have hk2 : (some (j, Phase.claimedP) : Option (Nat × Phase)) = some (k, ph) := hk
      simp only [Option.some.injEq, Prod.mk.injEq] at hk2
      obtain ⟨hjk, hph⟩ := hk2
      subst hjk
      subst hph
      exact ⟨by simp [setB], hqs, hqr, hqw⟩
    · exact inv.nofail
    · exact inv.wlim
    · exact inv.donores
    · exact inv.freshres
  | writeRunningStep j h =>
    obtain ⟨hcl, hok⟩ := inv.wpcinv j .claimedP h
    obtain ⟨hst, hre, hw⟩ := hok
    refine ⟨?_, ?_, ?_, ?_, ?_, ?_, ?_, ?_⟩
    · exact inv.excl
    · intro k hk
      by_cases hkj : k = j
      · subst hkj
        exact absurd ⟨hk, hcl⟩ (inv.excl k)
      · obtain ⟨h1, h2, h3⟩ := inv.qinv k hk
        exact ⟨by simpa [setO, hkj] using h1, h2, h3⟩
    · intro k hk
      by_cases hkj : k = j
      · subst hkj; simp [setO]
      · have h2 := inv.cstat k hk
        simpa [setO, hkj] using h2
    · intro k ph hk
      have hk2 : (some (j, Phase.runningP) : Option (Nat × Phase)) = some (k, ph) := hk
      simp only [Option.some.injEq, Prod.mk.injEq] at hk2
      obtain ⟨hjk, hph⟩ := hk2
      subst hjk
      subst hph
      exact ⟨hcl, by simp [setO], hre, hw⟩
    · intro k
      by_cases hkj : k = j
      · subst hkj; simp [setO]
      · have h2 := inv.nofail k
        simpa [setO, hkj] using h2
    · exact inv.wlim
    · intro k hk
      by_cases hkj : k = j
      · subst hkj
        simp [setO] at hk
      · exact inv.donores k (by simpa [setO, hkj] using hk)
    · intro k hk
      by_cases hkj : k = j
      · subst hkj
        simp [setO] at hk
      · exact inv.freshres k (by simpa [setO, hkj] using hk)
  | simulateStep j r h =>
    obtain ⟨hcl, hok⟩ := inv.wpcinv j .runningP h
    refine ⟨inv.excl, inv.qinv, inv.cstat, ?_, inv.nofail, inv.wlim, inv.donores, inv.freshres⟩
    intro k ph hk
    have hk2 : (some (j, Phase.simulatedP r) : Option (Nat × Phase)) = some (k, ph) := hk
    simp only [Option.some.injEq, Prod.mk.injEq] at hk2
    obtain ⟨hjk, hph⟩ := hk2
    subst hjk
    subst hph
    exact ⟨hcl, hok.1, hok.2.1, hok.2.2⟩
  | writeResultStep j r h =>
    obtain ⟨hcl, hok⟩ := inv.wpcinv j (.simulatedP r) h
    obtain ⟨hst, hre, hw⟩ := hok
    refine ⟨?_, ?_, ?_, ?_, ?_, ?_, ?_, ?_⟩
    · exact inv.excl
    · intro k hk
      by_cases hkj : k = j
      · subst hkj
        exact absurd ⟨hk, hcl⟩ (inv.excl k)
      · obtain ⟨h1, h2, h3⟩ := inv.qinv k hk
        exact ⟨h1, by simpa [setO, hkj] using h2, by simpa [bump, hkj] using h3⟩
    · exact inv.cstat
    · intro k ph hk
      have hk2 : (some (j, Phase.resultP) : Option (Nat × Phase)) = some (k, ph) := hk
      simp only [Option.some.injEq, Prod.mk.injEq] at hk2
      obtain ⟨hjk, hph⟩ := hk2
      subst hjk
      subst hph
      refine ⟨hcl, hst, by simp [setO], ?_⟩
      simp [bump, hw]
    · exact inv.nofail
    · intro k
      by_cases hkj : k = j
      · subst hkj
        simp [bump, hw]
      · have h2 := inv.wlim k
        simpa [bump, hkj] using h2
    · intro k hk
      by_cases hkj : k = j
      · subst hkj
        have h2 : a.status k = some .done := hk
        rw [hst] at h2
        simp at h2
      · have h2 := inv.donores k hk
        simpa [setO, hkj] using h2
    · intro k hk
      by_cases hkj : k = j
      · subst hkj
        have h2 : a.status k = none := hk
        rw [hst] at h2
        simp at h2
      · obtain ⟨f1, f2⟩ := inv.freshres k hk
        exact ⟨by simpa [setO, hkj] using f1, by simpa [bump, hkj] using f2⟩
  | writeDoneStep j h =>
    obtain ⟨hcl, hok⟩ := inv.wpcinv j .resultP h
    obtain ⟨hst, hre, hw⟩ := hok
    refine ⟨?_, ?_, ?_, ?_, ?_, ?_, ?_, ?_⟩
    · exact inv.excl
    · intro k hk
      by_cases hkj : k = j
      · subst hkj
        exact absurd ⟨hk, hcl⟩ (inv.excl k)
      · obtain ⟨h1, h2, h3⟩ := inv.qinv k hk
        exact ⟨by simpa [setO, hkj] using h1, h2, h3⟩
    · intro k hk
      by_cases hkj : k = j
      · subst hkj; simp [setO]
      · have h2 := inv.cstat k hk
        simpa [setO, hkj] using h2
    · intro k ph hk
      have hk2 : (some (j, Phase.doneP) : Option (Nat × Phase)) = some (k, ph) := hk
      simp only [Option.some.injEq, Prod.mk.injEq] at hk2
      obtain ⟨hjk, hph⟩ := hk2
      subst hjk
      subst hph
      exact ⟨hcl, by simp [setO], hre, hw⟩
    · intro k
      by_cases hkj : k = j
      · subst hkj; simp [setO]
      · have h2 := inv.nofail k
        simpa [setO, hkj] using h2
    · exact inv.wlim
    · intro k hk
      by_cases hkj : k = j
      · subst hkj
        exact hre
      · exact inv.donores k (by simpa [setO, hkj] using hk)
    · intro k hk
      by_cases hkj : k = j
      · subst hkj
        simp [setO] at hk
      · exact inv.freshres k (by simpa [setO, hkj] using hk)
  | releaseStep j h =>
    obtain ⟨hcl, hok⟩ := inv.wpcinv j .doneP h
    refine ⟨?_, ?_, ?_, ?_, ?_, ?_, ?_, ?_⟩
    · intro k hk
      by_cases hkj : k = j
      · subst hkj
        have h2 : setB a.claimed k false k = true := hk.2
        simp [setB] at h2
      · exact inv.excl k ⟨hk.1, by simpa [setB, hkj] using hk.2⟩
    · exact inv.qinv
    · intro k hk
      by_cases hkj : k = j
      · subst hkj
        have h2 : setB a.claimed k false k = true := hk
        simp [setB] at h2
      · exact inv.cstat k (by simpa [setB, hkj] using hk)
    · intro k ph hk
      exact Option.noConfusion hk
    · exact inv.nofail
    · exact inv.wlim
    · exact inv.donores
    · exact inv.freshres
  | failStep j ph h =>
    refine ⟨inv.excl, inv.qinv, inv.cstat, ?_, inv.nofail, inv.wlim, inv.donores, inv.freshres⟩
    intro k ph2 hk
    exact Option.noConfusion hk

theorem reachable_inv {s : SysState} (h : Reachable s) : Inv s := by
  induction h with
  | refl => exact init_inv
  | tail hab hbc ih =>
    obtain ⟨l, hstep⟩ := hbc
    exact step_preserves_inv hstep ih

theorem store_step_excl {a b : StoreSt} (hstep : StoreStep a b)
    (ih : ∀ j, ¬(a.queued j = true ∧ a.claimed j = true)) :
    ∀ j, ¬(b.queued j = true ∧ b.claimed j = true) := by
  cases hstep with
  | enqueue j hq hc =>
    intro k hk
    by_cases hkj : k = j
    · subst hkj
      have h2 : a.claimed k = true := hk.2
      rw [hc] at h2
      simp at h2
    · exact ih k ⟨by simpa [setB, hkj] using hk.1, hk.2⟩
  | claimMove j hq =>
    intro k hk
    by_cases hkj : k = j
    · subst hkj
      have h1 : setB a.queued k false k = true := hk.1
      simp [setB] at h1
    · exact ih k ⟨by simpa [setB, hkj] using hk.1, by simpa [setB, hkj] using hk.2⟩
  | release j =>
    intro k hk
    by_cases hkj : k = j
    · subst hkj
      have h2 : setB a.claimed k false k = true := hk.2
      simp [setB] at h2
    · exact ih k ⟨hk.1, by simpa [setB, hkj] using hk.2⟩

theorem stuck_step {a b : SysState} {l : SLabel} {j : Nat}
    (inv : Inv a) (hcl : a.claimed j = true) (hnw : ∀ ph, a.wpc ≠ some (j, ph))
    (hstep : Step a l b) :
    b.claimed j = true ∧ b.status j = a.status j ∧ (∀ ph, b.wpc ≠ some (j, ph)) := by
  cases hstep with
  | submitStep k hq hc hst =>
    have hkj : k ≠ j := fun he => (inv.cstat j hcl) (he ▸ hst)
    exact ⟨hcl, by simp [setO, Ne.symm hkj], hnw⟩
  | claimStep k hq hidle =>
    have hkj : k ≠ j := by
      intro he
      exact inv.excl j ⟨he ▸ hq, hcl⟩
    refine ⟨by simpa [setB, Ne.symm hkj] using hcl, rfl, ?_⟩
    intro ph heq
    have heq2 : (some (k, Phase.claimedP) : Option (Nat × Phase)) = some (j, ph) := heq
    simp only [Option.some.injEq, Prod.mk.injEq] at heq2
    exact hkj heq2.1
  | writeRunningStep k h =>
    have hkj : k ≠ j := fun he => hnw .claimedP (he ▸ h)
    refine ⟨hcl, by simp [setO, Ne.symm hkj], ?_⟩
    intro ph heq
    have heq2 : (some (k, Phase.runningP) : Option (Nat × Phase)) = some (j, ph) := heq
    simp only [Option.some.injEq, Prod.mk.injEq] at heq2
    exact hkj heq2.1
  | simulateStep k r h =>
    have hkj : k ≠ j := fun he => hnw .runningP (he ▸ h)
    refine ⟨hcl, rfl, ?_⟩
    intro ph heq
    have heq2 : (some (k, Phase.simulatedP r) : Option (Nat × Phase)) = some (j, ph) := heq
    simp only [Option.some.injEq, Prod.mk.injEq] at heq2
    exact hkj heq2.1
  | writeResultStep k r h =>
    have hkj : k ≠ j := fun he => hnw (.simulatedP r) (he ▸ h)
    refine ⟨hcl, rfl, ?_⟩
    intro ph heq
    have heq2 : (some (k, Phase.resultP) : Option (Nat × Phase)) = some (j, ph) := heq
    simp only [Option.some.injEq, Prod.mk.injEq] at heq2
    exact hkj heq2.1
  | writeDoneStep k h =>
    have hkj : k ≠ j := fun he => hnw .resultP (he ▸ h)
    refine ⟨hcl, by simp [setO, Ne.symm hkj], ?_⟩
    intro ph heq
    have heq2 : (some (k, Phase.doneP) : Option (Nat × Phase)) = some (j, ph) := heq
    simp only [Option.some.injEq, Prod.mk.injEq] at heq2
    exact hkj heq2.1
  | releaseStep k h =>
    have hkj : k ≠ j := fun he => hnw .doneP (he ▸ h)
    refine ⟨by simpa [setB, Ne.symm hkj] using hcl, rfl, ?_⟩
    intro ph heq
    exact Option.noConfusion heq
  | failStep k ph2 h =>
    refine ⟨hcl, rfl, ?_⟩
    intro ph heq
    exact Option.noConfusion heq

theorem stuck_reach {s t : SysState} {j : Nat} (hs : Reachable s)
    (hcl : s.claimed j = true) (hnw : ∀ ph, s.wpc ≠ some (j, ph))
    (hr : ReachFrom s t) :
    t.claimed j = true ∧ t.status j = s.status j ∧ (∀ ph, t.wpc ≠ some (j, ph)) := by
  induction hr with
  | refl => exact ⟨hcl, rfl, hnw⟩
  | tail hab hbc ih =>
    obtain ⟨l, hstep⟩ := hbc
    obtain ⟨ih1, ih2, ih3⟩ := ih
    have hinv := reachable_inv (Relation.ReflTransGen.trans hs hab)
    have hres := stuck_step hinv ih1 ih3 hstep
    exact ⟨hres.1, hres.2.1.trans ih2, hres.2.2⟩

theorem lookupMu_pos {m : String} {mu : ℚ} (h : lookupMu m = some mu) : 0 < mu := by
  unfold lookupMu at h
  split_ifs at h
  all_goals first
    | (simp only [Option.some.injEq] at h; rw [← h]; norm_num)
    | exact absurd h (by simp)

theorem single_chunk_length (samples : Nat) (mu thickness : ℚ) (seed : Option Nat)
    (stdDraw : Nat → Nat → ℚ) (freshDraw : Nat → ℚ) :
    (single_chunk_sim samples mu thickness seed stdDraw freshDraw).2.length = samples := by
  by_cases h : mu ≤ 0 <;> simp [single_chunk_sim, h]

theorem single_chunk_allfin {mu : ℚ} (hmu : 0 < mu) (samples : Nat) (thickness : ℚ)
    (seed : Option Nat) (stdDraw : Nat → Nat → ℚ) (freshDraw : Nat → ℚ) :
    ∀ x ∈ (single_chunk_sim samples mu thickness seed stdDraw freshDraw).2,
      ∃ q, x = PathLen.fin q := by
  intro x hx
  simp only [single_chunk_sim] at hx
  rw [if_neg (not_le.mpr hmu)] at hx
  simp only [List.mem_map] at hx
  obtain ⟨i, _, rfl⟩ := hx
  exact ⟨_, rfl⟩

theorem simCore_length (mu thickness : ℚ) (samples : Nat) (seed : Option Nat)
    (parallel : Bool) (nw : Nat) (stdDraw : Nat → Nat → ℚ) (freshDraw : Nat → ℚ)
    (entropy : Nat) (hnw : 0 < nw) :
    (simCore mu thickness samples seed parallel nw stdDraw freshDraw entropy).2.length
      = samples := by
  unfold simCore
  by_cases hpar : parallel
  · simp only [if_pos hpar, List.length_flatten, List.map_map]
    have hcongr : (chunkSpecs samples nw (offsetSeed seed entropy)).map
        (List.length ∘ Prod.snd ∘ fun c =>
          single_chunk_sim c.1 mu thickness (some c.2) stdDraw freshDraw)
        = (chunkSpecs samples nw (offsetSeed seed entropy)).map Prod.fst := by
      refine List.map_congr_left (fun c _ => ?_)
      exact single_chunk_length c.1 mu thickness (some c.2) stdDraw freshDraw
    rw [hcongr, chunkSpecs_sum _ _ _ hnw]
  · simp only [if_neg hpar]
    exact single_chunk_length samples mu thickness seed stdDraw freshDraw

theorem simCore_allfin {mu : ℚ} (hmu : 0 < mu) (thickness : ℚ) (samples : Nat)
    (seed : Option Nat) (parallel : Bool) (nw : Nat) (stdDraw : Nat → Nat → ℚ)
    (freshDraw : Nat → ℚ) (entropy : Nat) :
    ∀ x ∈ (simCore mu thickness samples seed parallel nw stdDraw freshDraw entropy).2,
      ∃ q, x = PathLen.fin q := by
  intro x hx
  unfold simCore at hx
  by_cases hpar : parallel
  · rw [if_pos hpar] at hx
    simp only [List.mem_flatten, List.mem_map] at hx
    obtain ⟨L, ⟨res, ⟨c, _, rfl⟩, rfl⟩, hxL⟩ := hx
    exact single_chunk_allfin hmu c.1 thickness (some c.2) stdDraw freshDraw x hxL
  · rw [if_neg hpar] at hx
    exact single_chunk_allfin hmu samples thickness seed stdDraw freshDraw x hx

theorem getD_fin (l : List PathLen) (hall : ∀ x ∈ l, ∃ q, x = PathLen.fin q) (i : Nat) :
    ∃ q, l.getD i (.fin 0) = PathLen.fin q := by
  induction l generalizing i with
  | nil => exact ⟨0, rfl⟩
  | cons a l ih =>
    cases i with
    | zero =>
      rw [List.getD_cons_zero]
      exact hall a (l.mem_cons_self a)
    | succ i =>
      rw [List.getD_cons_succ]
      exact ih (fun x hx => hall x (List.mem_cons_of_mem a hx)) i

theorem percentile95_fin (xs : List PathLen)
    (hall : ∀ x ∈ xs, ∃ q, x = PathLen.fin q) :
    ∃ p, percentile95 xs = PathLen.fin p := by
  have hsorted : ∀ x ∈ sortPaths xs, ∃ q, x = PathLen.fin q := fun x hx =>
    hall x ((List.perm_insertionSort _ xs).mem_iff.mp hx)
  obtain ⟨qa, ha⟩ := getD_fin (sortPaths xs) hsorted
      ((⌊95 * (((sortPaths xs).length : ℚ) - 1) / 100⌋).toNat)
  obtain ⟨qb, hb⟩ := getD_fin (sortPaths xs) hsorted
      (min ((⌊95 * (((sortPaths xs).length : ℚ) - 1) / 100⌋).toNat + 1)
        ((sortPaths xs).length - 1))
  refine ⟨qa + (95 * (((sortPaths xs).length : ℚ) - 1) / 100
      - (((⌊95 * (((sortPaths xs).length : ℚ) - 1) / 100⌋).toNat : ℚ))) * (qb - qa), ?_⟩
  simp only [percentile95]
  rw [ha, hb]

theorem maxP_fin (a b : ℚ) : PathLen.maxP (.fin a) (.fin b) = .fin (max a b) := by
  by_cases h : a ≤ b
  · simp [PathLen.maxP, PathLen.le, h, max_eq_right h]
  · simp [PathLen.maxP, PathLen.le, h, max_eq_left (le_of_not_le h)]

theorem histCounts_eq (edges xs : List PathLen) :
    histCounts edges xs
      = (List.range (edges.length - 1)).map (fun k => xs.countP (binPred edges k)) := by
  unfold histCounts binPred
  refine List.map_congr_left (fun k _ => ?_)
  by_cases hC : k + 1 = edges.length - 1
  · simp only [if_pos hC]
  · simp only [if_neg hC]

theorem countP_range_le_one (n : Nat) (p : Nat → Bool)
    (h : ∀ k1 k2, k1 < k2 → k2 < n → p k1 = true → p k2 = true → False) :
    (List.range n).countP p ≤ 1 := by
  induction n with
  | zero => simp
  | succ n ih =>
    rw [List.range_succ, List.countP_append]
    by_cases hp : p n = true
    · have hz : (List.range n).countP p = 0 := by
        rw [List.countP_eq_zero]
        intro k hk
        rw [List.mem_range] at hk
        intro hpk
        exact h k n hk (Nat.lt_succ_self n) hpk hp
      rw [hz]
      simp [hp]
    · have hz : List.countP p [n] = 0 := by
        simp only [List.countP_cons, List.countP_nil]
        simp [hp]
      rw [hz]
      have := ih (fun k1 k2 h1 h2 => h k1 k2 h1 (Nat.lt_succ_of_lt h2))
      omega

theorem sum_map_countP_cons {α β : Type} (l : List α) (x : β) (xs : List β)
    (p : α → β → Bool) :
    (l.map fun k => (x :: xs).countP (p k)).sum
      = (l.map fun k => xs.countP (p k)).sum + l.countP (fun k => p k x) := by
  induction l with
  | nil => simp
  | cons a l ih =>
    rw [List.map_cons, List.map_cons, List.sum_cons, List.sum_cons, ih,
      List.countP_cons, List.countP_cons]
    omega

theorem sum_map_countP_le {α β : Type} (l : List α) (xs : List β) (p : α → β → Bool)
    (h : ∀ x ∈ xs, l.countP (fun k => p k x) ≤ 1) :
    (l.map fun k => xs.countP (p k)).sum ≤ xs.length := by
  induction xs with
  | nil => simp
  | cons x xs ih =>
    rw [sum_map_countP_cons]
    have h1 := h x (xs.mem_cons_self x)
    have h2 := ih (fun y hy => h y (List.mem_cons_of_mem x hy))
    simp only [List.length_cons]
    omega

theorem getD_map_range {n : Nat} (f : Nat → PathLen) (k : Nat) (hk : k < n)
    (d : PathLen) : ((List.range n).map f).getD k d = f k := by
  rw [List.getD_eq_getElem?_getD, List.getElem?_map, List.getElem?_range hk]
  rfl

theorem linspace_binPred_excl (d : ℚ) (x : PathLen) (k1 k2 : Nat)
    (h12 : k1 < k2) (h2 : k2 < 19)
    (hp1 : binPred ((List.range 20).map (fun (i : ℕ) => PathLen.fin (0 + (i : ℚ) * d))) k1 x
      = true)
    (hp2 : binPred ((List.range 20).map (fun (i : ℕ) => PathLen.fin (0 + (i : ℚ) * d))) k2 x
      = true) : False := by
  have hlen : ((List.range 20).map (fun (i : ℕ) => PathLen.fin (0 + (i : ℚ) * d))).length = 20 := by
    simp
  have hk1 : k1 < 20 := by omega
  have hk1s : k1 + 1 < 20 := by omega
  have hk2 : k2 < 20 := by omega
  have hk2s : k2 + 1 < 20 := by omega
  have hne1 : ¬(k1 + 1 = ((List.range 20).map (fun (i : ℕ) => PathLen.fin (0 + (i : ℚ) * d))).length - 1) := by
    rw [hlen]; omega
  rw [binPred, if_neg hne1, getD_map_range _ _ hk1, getD_map_range _ _ hk1s] at hp1
  cases x with
  | inf => simp [PathLen.le, PathLen.lt] at hp1
  | fin q =>
    simp only [PathLen.le, PathLen.lt, Bool.and_eq_true, decide_eq_true_eq] at hp1
    obtain ⟨hle1, hlt1⟩ := hp1
    have hq2 : 0 + (k2 : ℚ) * d ≤ q := by
      rw [binPred] at hp2
      by_cases hC : k2 + 1 = ((List.range 20).map (fun (i : ℕ) => PathLen.fin (0 + (i : ℚ) * d))).length - 1
      · rw [if_pos hC, getD_map_range _ _ hk2] at hp2
        simp only [PathLen.le, Bool.and_eq_true, decide_eq_true_eq] at hp2
        exact hp2.1
      · rw [if_neg hC, getD_map_range _ _ hk2, getD_map_range _ _ hk2s] at hp2
        simp only [PathLen.le, PathLen.lt, Bool.and_eq_true, decide_eq_true_eq] at hp2
        exact hp2.1
    have hd : 0 < d := by
      have hcast : ((k1 : ℚ) + 1) * d = (k1 : ℚ) * d + d := by ring
      have h1 : (0 : ℚ) + (k1 : ℚ) * d ≤ q := hle1
      have h2q : q < 0 + ((k1 : ℚ) + 1) * d := by
        have := hlt1
        push_cast at this
        linarith
      linarith
    have hcast2 : ((k1 : ℚ) + 1) ≤ (k2 : ℚ) := by
      have : (k1 : ℚ) + 1 = ((k1 + 1 : ℕ) : ℚ) := by push_cast; ring
      rw [this]
      exact_mod_cast h12
    have hmul : ((k1 : ℚ) + 1) * d ≤ (k2 : ℚ) * d :=
      mul_le_mul_of_nonneg_right hcast2 (le_of_lt hd)
    have h2q : q < 0 + ((k1 : ℚ) + 1) * d := by
      have := hlt1
      push_cast at this
      linarith
    linarith

theorem histCounts_linspace_sum_le (hi : ℚ) (xs : List PathLen) :
    (histCounts (linspaceP 0 (.fin hi) 20) xs).sum ≤ xs.length := by
  have hed : linspaceP 0 (.fin hi) 20
      = (List.range 20).map
          (fun (i : ℕ) => PathLen.fin (0 + (i : ℚ) * ((hi - 0) / ((20 : ℚ) - 1)))) := rfl
  rw [histCounts_eq, hed]
  have hlen : ((List.range 20).map
      (fun (i : ℕ) => PathLen.fin (0 + (i : ℚ) * ((hi - 0) / ((20 : ℚ) - 1))))).length - 1 = 19 := by
    simp
  rw [hlen]
  refine sum_map_countP_le _ _ _ (fun x _ => ?_)
  refine countP_range_le_one 19 _ (fun k1 k2 h12 h2 hp1 hp2 => ?_)
  exact linspace_binPred_excl ((hi - 0) / ((20 : ℚ) - 1)) x k1 k2 h12 h2 hp1 hp2

/-! ## Claim theorems -/

/-- C2: in parallel mode, for every samples >= 1 and workerCount >= 1
(and any base seed), the chunk sizes produced by the splitting loop of
run_simulation sum to samples and never differ by more than one, and
samples = 17 with workerCount = 4 yields chunk sizes exactly
[5, 4, 4, 4]. -/
theorem chunk_split_even (samples nw offSeed : Nat) (hs : 1 ≤ samples) (hw : 1 ≤ nw) :
    ((chunkSpecs samples nw offSeed).map Prod.fst).sum = samples ∧
    (∀ a ∈ (chunkSpecs samples nw offSeed).map Prod.fst,
      ∀ b ∈ (chunkSpecs samples nw offSeed).map Prod.fst, a ≤ b + 1) ∧
    (chunkSpecs 17 4 offSeed).map Prod.fst = [5, 4, 4, 4] := by
  refine ⟨chunkSpecs_sum _ _ _ hw, ?_, ?_⟩
  · intro a ha b hb
    rcases chunkSpecs_mem_fst ha with h1 | h1 <;>
      rcases chunkSpecs_mem_fst hb with h2 | h2 <;> omega
  · have hr : List.range 4 = [0, 1, 2, 3] := rfl
    simp [chunkSpecs, hr, List.filterMap_cons]

/-- Witness for C2 at samples = 17, workerCount = 4. -/
theorem chunk_split_even_witness :
    ((chunkSpecs 17 4 0).map Prod.fst).sum = 17 ∧
    (∀ a ∈ (chunkSpecs 17 4 0).map Prod.fst,
      ∀ b ∈ (chunkSpecs 17 4 0).map Prod.fst, a ≤ b + 1) ∧
    (chunkSpecs 17 4 0).map Prod.fst = [5, 4, 4, 4] :=
  chunk_split_even 17 4 0 (by decide) (by decide)

/-- C1: with parallel = false and an explicitly supplied seed, two
invocations of run_simulation on identical valid inputs return identical
transmitted, transmitted_fraction, bins and counts, whatever the values
of the nondeterministic ambient quantities (fresh rng stream, process
entropy, cpu count, wall clock) in each invocation.  The shared stdDraw
models the numpy guarantee that a generator seeded with the same seed
yields the same stream. -/
theorem sequential_run_deterministic (material : String) (thickness : ℚ)
    (samples : Nat) (s : Nat) (mu : ℚ) (hm : lookupMu material = some mu)
    (nw1 nw2 : Option Nat) (stdDraw : Nat → Nat → ℚ)
    (fresh1 fresh2 : Nat → ℚ) (e1 e2 c1 c2 : Nat) (t1 t2 : ℚ) :
    ∃ r1 r2,
      run_simulation ⟨material, thickness, samples, some s⟩ false nw1
          stdDraw fresh1 e1 c1 t1 = .ok r1 ∧
      run_simulation ⟨material, thickness, samples, some s⟩ false nw2
          stdDraw fresh2 e2 c2 t2 = .ok r2 ∧
      r1.transmitted = r2.transmitted ∧
      r1.transmitted_fraction = r2.transmitted_fraction ∧
      r1.bins = r2.bins ∧
      r1.counts = r2.counts := by
  unfold run_simulation
  rw [show (⟨material, thickness, samples, some s⟩ : SimParams).material
        = material from rfl, hm]
  exact ⟨_, _, rfl, rfl, rfl, rfl, rfl, rfl⟩

/-- Witness for C1: two runs on Lead with seed 5 and different ambient
nondeterminism. -/
theorem sequential_run_deterministic_witness :
    ∃ r1 r2,
      run_simulation ⟨"Lead", 1, 2, some 5⟩ false none
          (fun s i => (s : ℚ) + i) (fun _ => 0) 0 1 0 = .ok r1 ∧
      run_simulation ⟨"Lead", 1, 2, some 5⟩ false (some 3)
          (fun s i => (s : ℚ) + i) (fun _ => 3) 9 4 7 = .ok r2 ∧
      r1.transmitted = r2.transmitted ∧
      r1.transmitted_fraction = r2.transmitted_fraction ∧
      r1.bins = r2.bins ∧
      r1.counts = r2.counts :=
  sequential_run_deterministic "Lead" 1 2 5 (12 / 10) rfl none (some 3)
    (fun s i => (s : ℚ) + i) (fun _ => 0) (fun _ => 3) 0 9 1 4 0 7

/-- C3 counterexample: the claim predicts that with caller-supplied seed
0 chunk i runs with derived seed 0 + i; but line 62 of simulation.py
uses Python or, which treats 0 as absent, so a run whose process entropy
is 42 derives chunk seeds [42, 43] instead of [0, 1]. -/
theorem chunk_seed_zero_cex :
    offsetSeed (some 0) 42 = 42 ∧
    (chunkSpecs 2 2 (offsetSeed (some 0) 42)).map Prod.snd = [42, 43] ∧
    (chunkSpecs 2 2 (offsetSeed (some 0) 42)).map Prod.snd ≠ [0 + 0, 0 + 1] := by
  refine ⟨rfl, by decide, by decide⟩

/-- C3 amended: for every nonzero caller-supplied seed, chunk i runs
with derived seed equal to the caller seed plus i; the process entropy
is used when the caller supplies no seed (and also, contrary to the
original claim, when the caller supplies seed 0). -/
theorem chunk_seed_derivation_amended (s e samples nw : Nat) (hs0 : s ≠ 0) :
    offsetSeed (some s) e = s ∧
    offsetSeed none e = e ∧
    ∀ i p, (chunkSpecs samples nw (offsetSeed (some s) e))[i]? = some p →
      p.2 = s + i := by
  have ho : offsetSeed (some s) e = s := by simp [offsetSeed, hs0]
  refine ⟨ho, rfl, fun i p hp => ?_⟩
  have := chunkSpecs_getElem_snd samples nw (offsetSeed (some s) e) i p hp
  rw [ho] at this
  exact this

/-- Witness for C3 amended at seed 7, entropy 99, samples 5, two
workers, chunk index 1. -/
theorem chunk_seed_derivation_amended_witness :
    offsetSeed (some 7) 99 = 7 ∧
    offsetSeed none 99 = 99 ∧
    (chunkSpecs 5 2 (offsetSeed (some 7) 99))[1]? = some (2, 8) ∧
    ((2, 8) : Nat × Nat).2 = 7 + 1 :=
  ⟨(chunk_seed_derivation_amended 7 99 5 2 (by decide)).1,
   (chunk_seed_derivation_amended 7 99 5 2 (by decide)).2.1,
   by decide,
   (chunk_seed_derivation_amended 7 99 5 2 (by decide)).2.2 1 (2, 8) (by decide)⟩

/-- C4: in every store state reachable by enqueue, claim-by-rename and
release, each job id is in at most one of the queued and claimed areas:
the rename moves the descriptor, it does not copy it. -/
theorem store_claim_exclusive (s : StoreSt) (h : StoreReachable s) :
    ∀ j, ¬(s.queued j = true ∧ s.claimed j = true) := by
  induction h with
  | refl =>
    intro j hj
    simpa using hj.1
  | tail hab hbc ih => exact store_step_excl hbc ih

/-- Witness for C4 at the store reached by a single enqueue of job 0. -/
theorem store_claim_exclusive_witness :
    ¬((({ queued := setB (fun _ => false) 0 true,
          claimed := fun _ => false } : StoreSt)).queued 0 = true ∧
      (({ queued := setB (fun _ => false) 0 true,
          claimed := fun _ => false } : StoreSt)).claimed 0 = true) :=
  store_claim_exclusive _
    (Relation.ReflTransGen.single (StoreStep.enqueue _ 0 rfl rfl)) 0

/-- C5 counterexample: a reachable state in which the ResultRecord of
job 0 exists while its StatusRecord still says running, refuting the
claimed "ResultRecord exists iff status = done" over all reachable
states (the worker writes the result on line 183 of app.py and the done
status only on line 194, after the S3 uploads). -/
theorem result_iff_done_cex :
    Reachable resultBeforeDoneState ∧
    resultBeforeDoneState.result 0 = some 1 ∧
    resultBeforeDoneState.status 0 = some JStatus.running ∧
    resultBeforeDoneState.status 0 ≠ some JStatus.done := by
  refine ⟨?_, rfl, rfl, by decide⟩
  refine Relation.ReflTransGen.head ⟨_, Step.submitStep initState 0 rfl rfl rfl⟩ ?_
  refine Relation.ReflTransGen.head ⟨_, Step.claimStep _ 0 rfl rfl⟩ ?_
  refine Relation.ReflTransGen.head ⟨_, Step.writeRunningStep _ 0 rfl⟩ ?_
  refine Relation.ReflTransGen.head ⟨_, Step.simulateStep _ 0 1 rfl⟩ ?_
  exact Relation.ReflTransGen.single ⟨_, Step.writeResultStep _ 0 1 rfl⟩

/-- C5 amended: in every reachable state, for every job id, the result
record has been written at most once, and whenever the status record
says done a result record exists; the converse direction fails only in
the transient window between the result write and the done-status
write. -/
theorem result_record_amended (s : SysState) (h : Reachable s) (j : Nat) :
    s.resultWrites j ≤ 1 ∧ (s.status j = some JStatus.done → s.result j ≠ none) :=
  ⟨(reachable_inv h).wlim j, (reachable_inv h).donores j⟩

/-- Witness for C5 amended at the initial state and job 0. -/
theorem result_record_amended_witness :
    initState.resultWrites 0 ≤ 1 ∧
    (initState.status 0 = some JStatus.done → initState.result 0 ≠ none) :=
  result_record_amended initState Relation.ReflTransGen.refl 0

/-- C9 counterexample: a job whose processing raises an exception during
persistence (here: the running-status write itself, line 144 of app.py)
is left claimed with status queued, not running — refuting the claimed
"status remains running in every subsequent state" for every
exception point in simulation or persistence. -/
theorem worker_fail_running_cex :
    Reachable claimedPendingState ∧
    Step claimedPendingState (.failAt .claimedP) failedRunningWriteState ∧
    Reachable failedRunningWriteState ∧
    failedRunningWriteState.claimed 0 = true ∧
    failedRunningWriteState.status 0 = some JStatus.queued ∧
    failedRunningWriteState.status 0 ≠ some JStatus.running := by
  have hreach : Reachable claimedPendingState := by
    refine Relation.ReflTransGen.head ⟨_, Step.submitStep initState 0 rfl rfl rfl⟩ ?_
    exact Relation.ReflTransGen.single ⟨_, Step.claimStep _ 0 rfl rfl⟩
  have hfail : Step claimedPendingState (.failAt .claimedP) failedRunningWriteState :=
    Step.failStep claimedPendingState 0 .claimedP rfl
  exact ⟨hreach, hfail,
    hreach.trans (Relation.ReflTransGen.single ⟨_, hfail⟩), rfl, rfl, by decide⟩

/-- C9 amended: in every reachable state no job ever has status failed;
an exception step releases nothing and rewrites nothing (the outer
except clause of the worker loop only logs and sleeps); and an abandoned
claimed job — one the worker is no longer positioned on — keeps its
claim marker and its last written status (running when the failure came
at or after the simulation, queued when the initial running-status write
itself failed) in every subsequent reachable state. -/
theorem worker_error_containment (s : SysState) (hs : Reachable s) :
    (∀ j, s.status j ≠ some JStatus.failed) ∧
    (∀ ph t, Step s (.failAt ph) t →
      t.claimed = s.claimed ∧ t.status = s.status ∧ t.result = s.result) ∧
    (∀ j, s.claimed j = true → (∀ ph, s.wpc ≠ some (j, ph)) →
      ∀ t, ReachFrom s t → t.status j = s.status j ∧ t.claimed j = true) := by
  refine ⟨(reachable_inv hs).nofail, ?_, ?_⟩
  · intro ph t hstep
    cases hstep with
    | failStep j ph2 h => exact ⟨rfl, rfl, rfl⟩
  · intro j hcl hnw t hr
    have h := stuck_reach hs hcl hnw hr
    exact ⟨h.2.1, h.1⟩

/-- Witness for C9 amended at the initial state. -/
theorem worker_error_containment_witness :
    initState.status 0 ≠ some JStatus.failed :=
  (worker_error_containment initState Relation.ReflTransGen.refl).1 0

theorem assembleResult_bins (m : String) (t : ℚ) (n : Nat) (core : Nat × List PathLen)
    (par : Bool) (nw : Nat) (e : ℚ) :
    (assembleResult m t n core par nw e).bins
      = linspaceP 0 (PathLen.maxP (.fin (t * 2))
          (if core.2.length ≠ 0 then percentile95 core.2 else .fin t)) 20 := rfl

theorem assembleResult_counts (m : String) (t : ℚ) (n : Nat) (core : Nat × List PathLen)
    (par : Bool) (nw : Nat) (e : ℚ) :
    (assembleResult m t n core par nw e).counts
      = histCounts (linspaceP 0 (PathLen.maxP (.fin (t * 2))
          (if core.2.length ≠ 0 then percentile95 core.2 else .fin t)) 20) core.2 := rfl

/-- C6: for every simulation call with a recognized material, samples
> 0 and a positive resolved worker count, the call succeeds and returns
bins consisting of exactly 20 equally spaced edges running from 0 to
max(thickness * 2, 95th percentile of the sampled path lengths), 19
counts, and a counts total of at most samples (out-of-range values are
dropped by the histogram). -/
theorem run_simulation_histogram (params : SimParams) (parallel : Bool)
    (n_workers : Option Nat) (stdDraw : Nat → Nat → ℚ) (freshDraw : Nat → ℚ)
    (entropy : Nat) (cpu_avail : Nat) (elapsed : ℚ) (mu : ℚ)
    (hm : lookupMu params.material = some mu)
    (hs : 0 < params.samples)
    (hnw : 0 < resolveWorkers n_workers cpu_avail) :
    ∃ res p,
      run_simulation params parallel n_workers stdDraw freshDraw entropy cpu_avail elapsed
        = .ok res ∧
      percentile95 (simCore mu params.thickness params.samples params.seed parallel
          (resolveWorkers n_workers cpu_avail) stdDraw freshDraw entropy).2
        = PathLen.fin p ∧
      res.bins = (List.range 20).map
        (fun (i : ℕ) => PathLen.fin ((i : ℚ) * (max (params.thickness * 2) p / 19))) ∧
      res.bins.length = 20 ∧
      res.counts.length = 19 ∧
      res.counts.sum ≤ params.samples := by
  have hmu : 0 < mu := lookupMu_pos hm
  have hlen := simCore_length mu params.thickness params.samples params.seed parallel
    (resolveWorkers n_workers cpu_avail) stdDraw freshDraw entropy hnw
  have hall := simCore_allfin hmu params.thickness params.samples params.seed parallel
    (resolveWorkers n_workers cpu_avail) stdDraw freshDraw entropy
  obtain ⟨p, hp⟩ := percentile95_fin _ hall
  have hne : (simCore mu params.thickness params.samples params.seed parallel
      (resolveWorkers n_workers cpu_avail) stdDraw freshDraw entropy).2.length ≠ 0 := by
    rw [hlen]; omega
  have hed : linspaceP 0 (.fin (max (params.thickness * 2) p)) 20
      = (List.range 20).map (fun (i : ℕ) => PathLen.fin
          (0 + (i : ℚ) * ((max (params.thickness * 2) p - 0) / ((20 : ℚ) - 1)))) := rfl
  have hbins : (assembleResult params.material params.thickness params.samples
      (simCore mu params.thickness params.samples params.seed parallel
        (resolveWorkers n_workers cpu_avail) stdDraw freshDraw entropy)
      parallel (resolveWorkers n_workers cpu_avail) elapsed).bins
      = (List.range 20).map
          (fun (i : ℕ) => PathLen.fin ((i : ℚ) * (max (params.thickness * 2) p / 19))) := by
    rw [assembleResult_bins, if_pos hne, hp, maxP_fin, hed]
    refine List.map_congr_left (fun i _ => ?_)
    simp only [PathLen.fin.injEq]
    norm_num
  refine ⟨assembleResult params.material params.thickness params.samples
      (simCore mu params.thickness params.samples params.seed parallel
        (resolveWorkers n_workers cpu_avail) stdDraw freshDraw entropy)
      parallel (resolveWorkers n_workers cpu_avail) elapsed,
    p, ?_, hp, hbins, ?_, ?_, ?_⟩
  · unfold run_simulation
    rw [hm]
  · rw [hbins]
    simp
  · rw [assembleResult_counts, if_pos hne, hp, maxP_fin, histCounts_eq, hed]
    simp
  · rw [assembleResult_counts, if_pos hne, hp, maxP_fin]
    have hsum := histCounts_linspace_sum_le (max (params.thickness * 2) p)
      (simCore mu params.thickness params.samples params.seed parallel
        (resolveWorkers n_workers cpu_avail) stdDraw freshDraw entropy).2
    rw [hlen] at hsum
    exact hsum

/-- Witness for C6: a sequential Water run with three samples. -/
theorem run_simulation_histogram_witness :
    ∃ res p,
      run_simulation ⟨"Water", 1, 3, some 1⟩ false none (fun _ i => (i : ℚ))
          (fun _ => 0) 0 1 0 = .ok res ∧
      percentile95 (simCore (8 / 100) 1 3 (some 1) false (resolveWorkers none 1)
          (fun _ i => (i : ℚ)) (fun _ => 0) 0).2 = PathLen.fin p ∧
      res.bins = (List.range 20).map
        (fun (i : ℕ) => PathLen.fin ((i : ℚ) * (max (1 * 2) p / 19))) ∧
      res.bins.length = 20 ∧
      res.counts.length = 19 ∧
      res.counts.sum ≤ 3 :=
  run_simulation_histogram ⟨"Water", 1, 3, some 1⟩ false none (fun _ i => (i : ℚ))
    (fun _ => 0) 0 1 0 (8 / 100) rfl (by decide) (by decide)

/-- C7: for every input whose material is not a recognized material,
run_simulation returns the Unknown material error and no result value,
for every sampler, entropy, cpu count and clock — the check sits on
lines 49-51 of simulation.py, before any sampling. -/
theorem unknown_material_error (params : SimParams) (parallel : Bool)
    (n_workers : Option Nat) (stdDraw : Nat → Nat → ℚ) (freshDraw : Nat → ℚ)
    (entropy : Nat) (cpu_avail : Nat) (elapsed : ℚ)
    (h : params.material ∉ ALLOWED_MATERIALS) :
    run_simulation params parallel n_workers stdDraw freshDraw entropy cpu_avail elapsed
      = .error "Unknown material" := by
  unfold run_simulation
  rw [lookupMu_eq_none h]

/-- Witness for C7 at material Gold. -/
theorem unknown_material_error_witness :
    run_simulation ⟨"Gold", 1, 100, none⟩ false none (fun _ _ => 0) (fun _ => 0) 0 1 0
      = .error "Unknown material" :=
  unknown_material_error _ _ _ _ _ _ _ _ (by decide)

/-- C8: for every thickness and every samples > 0, a zero attenuation
coefficient takes the guarded branch (no division by zero occurs: the
scale 1/mu is only formed under 0 < mu), every sampled path length is
infinite, and every trial is transmitted. -/
theorem zero_mu_all_transmitted (samples : Nat) (thickness : ℚ) (seed : Option Nat)
    (stdDraw : Nat → Nat → ℚ) (freshDraw : Nat → ℚ) (hs : 0 < samples) :
    (single_chunk_sim samples 0 thickness seed stdDraw freshDraw).1 = samples ∧
    (single_chunk_sim samples 0 thickness seed stdDraw freshDraw).2
      = List.replicate samples PathLen.inf := by
  simp only [single_chunk_sim, le_refl, if_true]
  refine ⟨?_, trivial⟩
  rw [countP_replicate_eq]
  rfl

/-- Witness for C8 at samples = 3. -/
theorem zero_mu_all_transmitted_witness :
    0 < 3 ∧
    ((single_chunk_sim 3 0 1 none (fun _ _ => 0) (fun _ => 0)).1 = 3 ∧
     (single_chunk_sim 3 0 1 none (fun _ _ => 0) (fun _ => 0)).2
       = List.replicate 3 PathLen.inf) :=
  ⟨by decide, zero_mu_all_transmitted 3 1 none _ _ (by decide)⟩

/-- C10: every submission whose material is not in the allowed set is
rejected with the invalid-material error and the state is returned
unchanged: no job id is handed out, no descriptor enters the queued
area, no status record is written. -/
theorem submit_rejects_unknown_material (s : SysState) (p : Payload) (freshId : Nat)
    (h : ∀ m, p.material = some m → m ∉ ALLOWED_MATERIALS) :
    submit s p freshId = (s, .rejected "invalid material" 400) := by
  unfold submit
  cases hm : p.material with
  | none => simp
  | some m => simp [h m hm]

/-- Witness for C10 at material Gold. -/
theorem submit_rejects_unknown_material_witness :
    submit initState ⟨some "Gold", 1, 100, false⟩ 7
      = (initState, .rejected "invalid material" 400) :=
  submit_rejects_unknown_material _ _ _ (by intro m hm; cases hm; decide)

end CloudSim
